import Mathlib

/-!
# Verification of the faceless highlight-extraction engine

Shallow embedding of the core analysis/export pipeline of the repository
(`src/asr.js`, `src/export.js`, plus the shared helpers of `utils.js` that
`export.js` re-exports).  JavaScript numbers are modelled as exact rationals
(`ℚ`); all arithmetic appearing in the embedded code paths is exact in IEEE
doubles for the magnitudes involved, so `ℚ` is faithful.  Arrays are `List`s,
`null`/`undefined` is `Option.none`, and the in-place `Array.prototype.sort`
(stable per the ECMAScript spec) is modelled by the stable
`List.insertionSort`.  Browser-only collaborators (media decode, canvas,
`MediaRecorder`) are out of scope per the specification; the embedding starts
from their outputs (decoded interest curve, per-file durations, draw
timestamps).
-/

/-- A selected sub-range of one source file: `{ fileIndex, start, end }`
(from `mapGlobalTimeToFileRange` in `src/asr.js`).  `end` is spelled `endT`
because `end` is a Lean keyword. -/
structure Clip where
  fileIndex : ℕ
  start : ℚ
  endT : ℚ
deriving DecidableEq, Repr

/-- A caption segment `{ start, end, text }` in export-time seconds
(produced by `extractSegments` in `src/export.js`). -/
structure Seg where
  start : ℚ
  endT : ℚ
  text : String
deriving DecidableEq, Repr

/-- `movingAverage(arr, k)` from `utils.js`, inner loop.  The running `sum`
adds `arr[i]` and, once `i >= k`, subtracts `arr[i - k]`; each output entry is
`sum / Math.min(i + 1, k)`.  The full array is kept for the `arr[i - k]`
lookup while the recursion walks the remaining suffix (`arr.drop i`). -/
def movingAverageGo (arr : List ℚ) (k : ℕ) : List ℚ → ℕ → ℚ → List ℚ
  | [], _, _ => []
  | x :: rest, i, sum =>
    let s2 := if k ≤ i then sum + x - arr.getD (i - k) 0 else sum + x
    s2 / ((min (i + 1) k : ℕ) : ℚ) :: movingAverageGo arr k rest (i + 1) s2

/-- `movingAverage(arr, k = 5)` from `utils.js`: trailing moving average with
divisor `min(i + 1, k)`. -/
def movingAverage (arr : List ℚ) (k : ℕ) : List ℚ :=
  movingAverageGo arr k arr 0 0

/-- Loop body of `detectPeaks(arr, threshold, minDistance)` from `utils.js`.
`prev` is `arr[i - 1]`, the list argument is `arr.drop i` (so its first two
entries are `arr[i]` and `arr[i + 1]`); the loop runs while `i < arr.length -
1`, i.e. while at least two entries remain.  `last = none` models the initial
`lastIdx = -Infinity`, for which `i - lastIdx >= minDistance` always holds. -/
def detectPeaksGo (threshold minDistance : ℚ) (prev : ℚ) :
    List ℚ → ℕ → Option ℕ → List ℕ
  | b :: c :: rest, i, last =>
    if threshold < b ∧ prev < b ∧ c ≤ b then
      match last with
      | none => i :: detectPeaksGo threshold minDistance b (c :: rest) (i + 1) (some i)
      | some l =>
        if minDistance ≤ (i : ℚ) - (l : ℚ) then
          i :: detectPeaksGo threshold minDistance b (c :: rest) (i + 1) (some i)
        else
          detectPeaksGo threshold minDistance b (c :: rest) (i + 1) last
    else
      detectPeaksGo threshold minDistance b (c :: rest) (i + 1) last
  | _, _, _ => []

/-- `detectPeaks(arr, threshold, minDistance = 10)` from `utils.js`: indices
`i` with `1 <= i <= arr.length - 2`, `arr[i] > threshold`,
`arr[i] > arr[i-1]`, `arr[i] >= arr[i+1]`, keeping only peaks at least
`minDistance` after the previously accepted one. -/
def detectPeaks (arr : List ℚ) (threshold : ℚ) (minDistance : ℚ) : List ℕ :=
  match arr with
  | [] => []
  | a :: rest => detectPeaksGo threshold minDistance a rest 1 none

/-- The comparator `(a, b) => (a.fileIndex - b.fileIndex) || (a.start -
b.start)` of `dedupeClips` orders clips by file index, then by start; this is
the corresponding weak order ("`a` need not come after `b`"). -/
def clipLE (a b : Clip) : Prop :=
  a.fileIndex < b.fileIndex ∨ (a.fileIndex = b.fileIndex ∧ a.start ≤ b.start)

instance : DecidableRel clipLE := fun a b =>
  inferInstanceAs (Decidable (a.fileIndex < b.fileIndex ∨
    (a.fileIndex = b.fileIndex ∧ a.start ≤ b.start)))

/-- Merge loop of `dedupeClips` in `src/asr.js`: `last` is the clip most
recently pushed to `out` (still mutable); a candidate in the same file whose
start is within `minGapSeconds` of `last.end` is merged by extending
`last.end`, otherwise `last` is emitted and the candidate becomes current. -/
def dedupeMergeGo (minGap : ℚ) (last : Clip) : List Clip → List Clip
  | [] => [last]
  | c :: rest =>
    if last.fileIndex ≠ c.fileIndex ∨ minGap ≤ c.start - last.endT then
      last :: dedupeMergeGo minGap c rest
    else
      dedupeMergeGo minGap { last with endT := max last.endT c.endT } rest

/-- Final clamp of `dedupeClips`: `{ ...c, start: Math.max(0, c.start), end:
Math.max(c.start + 0.5, c.end) }` (note: `end` is floored using the original
`c.start`). -/
def clampClip (c : Clip) : Clip :=
  { c with start := max 0 c.start, endT := max (c.start + 1/2) c.endT }

/-- `dedupeClips(clips, minGapSeconds)` from `src/asr.js`: stable sort by
`(fileIndex, start)`, one merge pass, then per-clip clamp. -/
def dedupeClips (clips : List Clip) (minGap : ℚ) : List Clip :=
  match clips.insertionSort clipLE with
  | [] => []
  | c :: rest => (dedupeMergeGo minGap c rest).map clampClip

/-- The `videoOffsets` accumulation in `analyzeVideos`: each file's starting
offset on the concatenated timeline is the running sum of prior durations,
starting from `offset`. -/
def videoOffsetsGo (offset : ℚ) : List ℚ → List ℚ
  | [] => []
  | d :: rest => offset :: videoOffsetsGo (offset + d) rest

/-- `videoOffsets` as built in `analyzeVideos` (`src/asr.js`): cumulative
per-file offsets starting at `0`. -/
def videoOffsets (durations : List ℚ) : List ℚ :=
  videoOffsetsGo 0 durations

/-- Loop body of `mapGlobalTimeToFileRange`: scan `(offset, duration)` pairs
with their file index `i`, returning the first file whose global range
`[off, off + dur)` contains `start`. -/
def mapGo (start endT : ℚ) : ℕ → List (ℚ × ℚ) → Option Clip
  | _, [] => none
  | i, (off, dur) :: rest =>
    if off ≤ start ∧ start < off + dur then
      some ⟨i, start - off, min (endT - off) dur⟩
    else
      mapGo start endT (i + 1) rest

/-- `mapGlobalTimeToFileRange(start, end, perFileResults, offsets)` from
`src/asr.js`; `perFileResults` contributes only the per-file durations. -/
def mapGlobalTimeToFileRange (start endT : ℚ) (offsets durations : List ℚ) :
    Option Clip :=
  mapGo start endT 0 (offsets.zip durations)

/-- `Math.floor(sorted.length * 0.8)` of `analyzeVideos`; exact for every
array length representable as an IEEE double, since `0.8 * n` rounds to the
nearest double of `4n/5` and never crosses an integer boundary. -/
def q80Index (n : ℕ) : ℕ := 4 * n / 5

/-- The interest threshold of `analyzeVideos` (`src/asr.js` line 82-83):
`const sorted = [...globalAudio].sort((a, b) => a - b); const q80 =
sorted[Math.floor(sorted.length * 0.8)] || 0.01;`.  Indexing out of range
yields `undefined` (falsy) and a stored `0` is also falsy, so both fall back
to `0.01`. -/
def q80Threshold (globalAudio : List ℚ) : ℚ :=
  let sorted := globalAudio.insertionSort (· ≤ ·)
  match sorted.get? (q80Index sorted.length) with
  | some v => if v = 0 then 1/100 else v
  | none => 1/100

/-- `hopSec = 1600 / 16000` of `analyzeVideos`: seconds per interest-curve
sample. -/
def hopSec : ℚ := 1600 / 16000

/-- The peak-to-clip loop of `analyzeVideos`: for each peak index `pi`,
`t = pi * hopSec`, `start = clamp(t - minLen/2, 0, Infinity)`,
`end = clamp(start + maxLen, 0, Infinity)` (with upper bound `Infinity`,
`clamp` is `Math.max(0, ·)`); the window is mapped into the file containing
its start, dropped when no file contains it, and the loop breaks once
`clips.length >= maxClips` (checked after every iteration). -/
def collectClips (offsets durations : List ℚ) (minLen maxLen : ℚ)
    (maxClips : ℕ) : List ℕ → ℕ → List Clip
  | [], _ => []
  | pi :: rest, count =>
    let t : ℚ := (pi : ℚ) * hopSec
    let s := max 0 (t - minLen / 2)
    let e := max 0 (s + maxLen)
    match mapGlobalTimeToFileRange s e offsets durations with
    | some clip =>
      if maxClips ≤ count + 1 then [clip]
      else clip :: collectClips offsets durations minLen maxLen maxClips rest (count + 1)
    | none =>
      if maxClips ≤ count then []
      else collectClips offsets durations minLen maxLen maxClips rest count

/-- Result record of `analyzeVideos`: `{ clips, audioPCM, sampleRate }`. -/
structure AnalyzeResult where
  clips : List Clip
  audioPCM : List ℚ
  sampleRate : ℚ
deriving DecidableEq, Repr

/-- `analyzeVideos` (`src/asr.js` lines 81-115), starting from the data the
browser collaborators return: the concatenated smoothed interest curve
`globalAudio` and the per-file durations.  It thresholds the curve at the
80th percentile, detects peaks with minimum index distance `3`, maps
peak-centered windows to per-file clips (stopping at `maxClips`), dedupes
them with `minGapSeconds = 1.0`, and returns the curve as `audioPCM` tagged
with `sampleRate: 10`. -/
def analyzeVideos (durations globalAudio : List ℚ) (minLen maxLen : ℚ)
    (maxClips : ℕ) : AnalyzeResult :=
  let q80 := q80Threshold globalAudio
  let peaks := detectPeaks globalAudio q80 3
  let offs := videoOffsets durations
  let clips := collectClips offs durations minLen maxLen maxClips peaks 0
  { clips := dedupeClips clips 1, audioPCM := globalAudio, sampleRate := 10 }

/-- A transcription chunk of heterogeneous shape, as probed by
`extractSegments` (`src/export.js`): any of the timestamp spellings and text
spellings may be absent.  `timestamp` is a 2-array whose entries may be
`null` (hence `Option (Option ℚ × Option ℚ)`); `end` is spelled `endT`. -/
structure RawChunk where
  timestamp : Option (Option ℚ × Option ℚ)
  time : Option ℚ
  timestart : Option ℚ
  timeend : Option ℚ
  start : Option ℚ
  endT : Option ℚ
  text : Option String
  chunk : Option String
  raw_text : Option String
deriving DecidableEq, Repr

/-- A transcription result as probed by `extractSegments`: an optional
`chunks` array, an optional `segments` array, and an optional full `text`. -/
structure RawAsrResult where
  chunks : Option (List RawChunk)
  segments : Option (List RawChunk)
  text : Option String
deriving DecidableEq, Repr

/-- JavaScript truthiness of an optional number: `undefined`/`null` and `0`
are falsy. -/
def numTruthy : Option ℚ → Bool
  | none => false
  | some v => v ≠ 0

/-- JavaScript truthiness of an optional string: `undefined`/`null` and the
empty string are falsy. -/
def strTruthy : Option String → Bool
  | none => false
  | some s => s ≠ ""

/-- JavaScript truthiness of an optional array: any array (even empty) is
truthy. -/
def arrTruthy {α : Type} : Option α → Bool
  | none => false
  | some _ => true

/-- Per-chunk body of `extractSegments`.  Note the JavaScript precedence of
`const ts = ch.timestamp || ch.time || ch.timestart ? [ch.timestart,
ch.timeend] : ch.timestamp;`: the whole `||`-chain is the ternary condition,
so whenever any of the three is truthy, `ts` is `[ch.timestart, ch.timeend]`.
Then `start = Array.isArray(ts) ? (ts[0] ?? 0) : (ch.start ?? 0)` and
likewise for `end`; the segment is pushed with `start` clamped to `>= 0`,
`end` clamped to `>= start`, and the first truthy text spelling. -/
def extractChunkSeg (ch : RawChunk) : Seg :=
  let ts : Option (Option ℚ × Option ℚ) :=
    if arrTruthy ch.timestamp || numTruthy ch.time || numTruthy ch.timestart then
      some (ch.timestart, ch.timeend)
    else ch.timestamp
  let s : ℚ := match ts with
    | some p => p.1.getD 0
    | none => ch.start.getD 0
  let e : ℚ := match ts with
    | some p => p.2.getD 0
    | none => ch.endT.getD 0
  let txt : String :=
    if strTruthy ch.text then ch.text.getD ""
    else if strTruthy ch.chunk then ch.chunk.getD ""
    else if strTruthy ch.raw_text then ch.raw_text.getD ""
    else ""
  ⟨max 0 s, max s e, txt⟩

/-- `extractSegments(asrResult)` from `src/export.js`: `null` input returns
`null`; otherwise the chunk list is `asrResult.chunks || asrResult.segments
|| []` (an empty `chunks` array is truthy and is kept), each chunk yields one
segment, and only when that leaves zero segments and `asrResult.text` is a
non-empty string is the single fallback segment
`{ start: 0, end: Number.MAX_SAFE_INTEGER / 1000, text }` pushed. -/
def extractSegments (r : Option RawAsrResult) : Option (List Seg) :=
  match r with
  | none => none
  | some res =>
    let chunks : List RawChunk :=
      match res.chunks with
      | some l => l
      | none => match res.segments with
        | some l => l
        | none => []
    let segs := chunks.map extractChunkSeg
    if segs.length = 0 ∧ strTruthy res.text then
      some [⟨0, 9007199254740991 / 1000, res.text.getD ""⟩]
    else some segs

/-- `runTranscriptionIfEnabled(audioPCM, sampleRate, onProgress)` from
`src/asr.js`, with the black-box ASR pipeline abstracted as `asr` (its
`try`/`catch`-recovered failures folded into `asr` returning `none`): empty
input returns `null`, a sample rate below `100` returns `null` (the interest
curve is ~10 Hz, not raw audio), otherwise the pipeline result is returned. -/
def runTranscriptionIfEnabled (audioPCM : List ℚ) (sampleRate : ℚ)
    (asr : List ℚ → ℚ → Option RawAsrResult) : Option RawAsrResult :=
  if audioPCM.length = 0 then none
  else if sampleRate < 100 then none
  else asr audioPCM sampleRate

/-- Count of leading caption segments with `end < t`.  The caption-cursor
loop of `renderClipToCanvas` (`src/export.js` line 116), `while (segIdx <
captionSegments.length && captionSegments[segIdx].end < tExport) segIdx++`,
advances the cursor past exactly this prefix of the suffix it starts in. -/
def advanceFrom (t : ℚ) : List Seg → ℕ
  | [] => 0
  | s :: rest => if s.endT < t then advanceFrom t rest + 1 else 0

/-- The caption cursor after the advance loop of `renderClipToCanvas`, run at
export time `t` from current index `i`. -/
def advanceIdx (segs : List Seg) (t : ℚ) (i : ℕ) : ℕ :=
  i + advanceFrom t (segs.drop i)

/-- Whether the `draw` callback of `renderClipToCanvas` draws a caption at
export time `t` with cursor `i`: after advancing, `const seg =
captionSegments[segIdx]; if (seg && seg.start <= tExport && tExport <=
seg.end) drawCaption(...)`. -/
def captionShown (segs : List Seg) (i : ℕ) (t : ℚ) : Bool :=
  match segs.get? (advanceIdx segs t i) with
  | some seg => decide (seg.start ≤ t ∧ t ≤ seg.endT)
  | none => false

/-- Cursor trace of the `draw` loop over one clip: each frame advances the
cursor from its previous value at that frame's export time; the resulting
cursor values are listed in order. -/
def runClip (segs : List Seg) : List ℚ → ℕ → List ℕ
  | [], _ => []
  | t :: ts, i => advanceIdx segs t i :: runClip segs ts (advanceIdx segs t i)

/-- Cursor trace of one export run of `exportCompilation`: clips are rendered
sequentially and `renderClipToCanvas` declares `let segIdx = 0` afresh for
each clip, so every clip's trace starts from cursor `0`. -/
def runExport (segs : List Seg) (clipTimes : List (List ℚ)) : List ℕ :=
  (clipTimes.map (fun ts => runClip segs ts 0)).flatten


unseal Rat.add Rat.sub Rat.mul Rat.inv Rat.ofScientific

/-! ## Helper lemmas -/

theorem videoOffsetsGo_getD_ge (durs : List ℚ) :
    ∀ (b : ℚ) (j : ℕ), (∀ d ∈ durs, 0 ≤ d) → j < durs.length →
      b ≤ (videoOffsetsGo b durs).getD j 0 := by
  induction durs with
  | nil => intro b j _ hj; simp at hj
  | cons d rest ih =>
    intro b j hd hj
    cases j with
    | zero => simp [videoOffsetsGo]
    | succ j =>
      have h1 : b + d ≤ (videoOffsetsGo (b + d) rest).getD j 0 := by
        refine ih (b + d) j (fun x hx => hd x (List.mem_cons_of_mem _ hx)) ?_
        simpa using Nat.lt_of_succ_lt_succ hj
      have h0 : (0 : ℚ) ≤ d := hd d (List.mem_cons_self _ _)
      calc b ≤ b + d := by linarith
        _ ≤ _ := h1
        _ = (videoOffsetsGo b (d :: rest)).getD (j + 1) 0 := by
              simp [videoOffsetsGo]

theorem mapGo_offsets_spec (start endT : ℚ) (durs : List ℚ) :
    ∀ (b : ℚ) (a i : ℕ), (∀ d ∈ durs, 0 ≤ d) → i < durs.length →
      (videoOffsetsGo b durs).getD i 0 ≤ start →
      start < (videoOffsetsGo b durs).getD i 0 + durs.getD i 0 →
      mapGo start endT a ((videoOffsetsGo b durs).zip durs) =
        some ⟨a + i, start - (videoOffsetsGo b durs).getD i 0,
          min (endT - (videoOffsetsGo b durs).getD i 0) (durs.getD i 0)⟩ := by
  induction durs with
  | nil => intro b a i _ hi; simp at hi
  | cons d rest ih =>
    intro b a i hd hi hlo hhi
    cases i with
    | zero =>
      simp only [videoOffsetsGo, List.getD_cons_zero] at hlo hhi ⊢
      simp only [List.zip_cons_cons, mapGo, if_pos (And.intro hlo hhi)]
      simp
    | succ i =>
      have hlo' : (videoOffsetsGo (b + d) rest).getD i 0 ≤ start := by
        simpa [videoOffsetsGo] using hlo
      have hhi' : start < (videoOffsetsGo (b + d) rest).getD i 0 + rest.getD i 0 := by
        simpa [videoOffsetsGo] using hhi
      have hi' : i < rest.length := by simpa using Nat.lt_of_succ_lt_succ hi
      have hbd : b + d ≤ start :=
        le_trans (videoOffsetsGo_getD_ge rest (b + d) i
          (fun x hx => hd x (List.mem_cons_of_mem _ hx)) hi') hlo'
      have hnot : ¬ (b ≤ start ∧ start < b + d) := by
        rintro ⟨-, h2⟩; linarith
      have harith : a + (i + 1) = (a + 1) + i := by omega
      have hrec := ih (b + d) (a + 1) i
        (fun x hx => hd x (List.mem_cons_of_mem _ hx)) hi' hlo' hhi'
      simp only [videoOffsetsGo, List.zip_cons_cons, mapGo, if_neg hnot,
        List.getD_cons_succ, harith]
      simpa [List.zip] using hrec

/-! ## C6: windows are mapped to the single file containing their start -/

/-- C6: a candidate window spanning a file boundary is never split by
`mapGlobalTimeToFileRange`: whenever the window's start lies inside file
`i`'s global range (cumulative offsets of nonnegative durations), the result
is file `i` with local start `start - offset_i` and local end
`min (end - offset_i) duration_i` — truncated to file `i`, never split. -/
theorem mapGlobalTimeToFileRange_containing_file (durations : List ℚ)
    (start endT : ℚ) (i : ℕ) (hd : ∀ d ∈ durations, 0 ≤ d)
    (hi : i < durations.length)
    (hlo : (videoOffsets durations).getD i 0 ≤ start)
    (hhi : start < (videoOffsets durations).getD i 0 + durations.getD i 0) :
    mapGlobalTimeToFileRange start endT (videoOffsets durations) durations =
      some ⟨i, start - (videoOffsets durations).getD i 0,
        min (endT - (videoOffsets durations).getD i 0) (durations.getD i 0)⟩ := by
  have h := mapGo_offsets_spec start endT durations 0 0 i hd hi hlo hhi
  simpa [mapGlobalTimeToFileRange, videoOffsets] using h

/-- C6 witness: two files of durations 10 s and 15 s; the global window
`[8, 14]` maps to file 0, local `[8, 10]` (truncated at the boundary, not
split into file 1). -/
theorem mapGlobalTimeToFileRange_containing_file_witness :
    mapGlobalTimeToFileRange 8 14 (videoOffsets [10, 15]) [10, 15] =
      some ⟨0, 8, 10⟩ := by
  have h := mapGlobalTimeToFileRange_containing_file [10, 15] 8 14 0
    (by decide) (by decide) (by decide) (by decide)
  exact h.trans (by decide)


/-! ## C7 and C10: peak-detection invariants -/

theorem detectPeaksGo_spec (threshold minDistance : ℚ) :
    ∀ (lst : List ℚ) (prev : ℚ) (i : ℕ) (last : Option ℕ),
      (∀ x ∈ detectPeaksGo threshold minDistance prev lst i last,
        i ≤ x ∧ x + 2 ≤ i + lst.length ∧
          ∀ l, last = some l → minDistance ≤ (x : ℚ) - (l : ℚ)) ∧
      List.Pairwise (fun a b : ℕ => a < b ∧ minDistance ≤ (b : ℚ) - (a : ℚ))
        (detectPeaksGo threshold minDistance prev lst i last) := by
  intro lst
  induction lst with
  | nil => intro prev i last; simp [detectPeaksGo]
  | cons b tail ih =>
    intro prev i last
    cases tail with
    | nil => simp [detectPeaksGo]
    | cons c rest =>
      by_cases hpk : threshold < b ∧ prev < b ∧ c ≤ b
      · cases last with
        | none =>
          have hin := ih b (i + 1) (some i)
          simp only [detectPeaksGo, if_pos hpk]
          constructor
          · intro x hx
            rcases List.mem_cons.mp hx with rfl | hx'
            · refine ⟨le_refl _, by simp only [List.length_cons]; omega, ?_⟩
              intro l hl; exact absurd hl (by simp)
            · obtain ⟨h1, h2, h3⟩ := hin.1 x hx'
              simp only [List.length_cons] at h2
              refine ⟨by omega, by simp only [List.length_cons]; omega, ?_⟩
              intro l hl; exact absurd hl (by simp)
          · refine List.pairwise_cons.mpr ⟨?_, hin.2⟩
            intro y hy
            obtain ⟨h1, h2, h3⟩ := hin.1 y hy
            exact ⟨by omega, h3 i rfl⟩
        | some l =>
          by_cases hdist : minDistance ≤ (i : ℚ) - (l : ℚ)
          · have hin := ih b (i + 1) (some i)
            simp only [detectPeaksGo, if_pos hpk, if_pos hdist]
            constructor
            · intro x hx
              rcases List.mem_cons.mp hx with rfl | hx'
              · refine ⟨le_refl _, by simp only [List.length_cons]; omega, ?_⟩
                intro l' hl'
                cases hl'; exact hdist
              · obtain ⟨h1, h2, h3⟩ := hin.1 x hx'
                simp only [List.length_cons] at h2
                refine ⟨by omega, by simp only [List.length_cons]; omega, ?_⟩
                intro l' hl'
                cases hl'
                have hxi : minDistance ≤ (x : ℚ) - (i : ℚ) := h3 i rfl
                have hge : (i : ℚ) + 1 ≤ (x : ℚ) := by
                  have h4 : i + 1 ≤ x := h1
                  exact_mod_cast h4
                linarith
            · refine List.pairwise_cons.mpr ⟨?_, hin.2⟩
              intro y hy
              obtain ⟨h1, h2, h3⟩ := hin.1 y hy
              exact ⟨by omega, h3 i rfl⟩
          · have hin := ih b (i + 1) (some l)
            simp only [detectPeaksGo, if_pos hpk, if_neg hdist]
            constructor
            · intro x hx
              obtain ⟨h1, h2, h3⟩ := hin.1 x hx
              simp only [List.length_cons] at h2
              exact ⟨by omega, by simp only [List.length_cons]; omega, h3⟩
            · exact hin.2
      · have hin := ih b (i + 1) last
        simp only [detectPeaksGo, if_neg hpk]
        constructor
        · intro x hx
          obtain ⟨h1, h2, h3⟩ := hin.1 x hx
          simp only [List.length_cons] at h2
          exact ⟨by omega, by simp only [List.length_cons]; omega, h3⟩
        · exact hin.2

/-- C7: for every curve, threshold and `minDistance`, the indices returned by
`detectPeaks` are strictly increasing and any two of them differ by at least
`minDistance`; in particular with the `minDistance = 3` used by
`analyzeVideos`, no two returned peaks are closer than 3 samples. -/
theorem detectPeaks_min_separation (arr : List ℚ) (threshold minDistance : ℚ) :
    List.Pairwise (fun a b : ℕ => a < b ∧ minDistance ≤ (b : ℚ) - (a : ℚ))
      (detectPeaks arr threshold minDistance) := by
  cases arr with
  | nil => simp [detectPeaks]
  | cons a rest =>
    exact (detectPeaksGo_spec threshold minDistance rest a 1 none).2

/-- C10: `detectPeaks` never returns the first or the last sample index:
every returned index `x` satisfies `1 <= x <= arr.length - 2` (the scan loop
runs `i` from `1` to `arr.length - 2` only), so an energy maximum at the very
first or very last sample is never selected. -/
theorem detectPeaks_interior (arr : List ℚ) (threshold minDistance : ℚ) :
    ∀ x ∈ detectPeaks arr threshold minDistance,
      1 ≤ x ∧ x + 2 ≤ arr.length ∧ x ≤ arr.length - 2 := by
  intro x hx
  cases arr with
  | nil => simp [detectPeaks] at hx
  | cons a rest =>
    obtain ⟨h1, h2, -⟩ :=
      (detectPeaksGo_spec threshold minDistance rest a 1 none).1 x hx
    have hlen : (a :: rest).length = rest.length + 1 := by simp
    exact ⟨h1, by omega, by omega⟩

/-- C10 witness: on the curve `[0,1,5,1,0,1,6,1,0]` with threshold `2` and
`minDistance 2`, index `2` is returned and lies strictly inside the curve. -/
theorem detectPeaks_interior_witness :
    2 ∈ detectPeaks [0, 1, 5, 1, 0, 1, 6, 1, 0] 2 2 ∧
      1 ≤ 2 ∧ 2 + 2 ≤ ([0, 1, 5, 1, 0, 1, 6, 1, 0] : List ℚ).length ∧
        2 ≤ ([0, 1, 5, 1, 0, 1, 6, 1, 0] : List ℚ).length - 2 :=
  ⟨by decide, detectPeaks_interior [0, 1, 5, 1, 0, 1, 6, 1, 0] 2 2 2 (by decide)⟩

/-! ## C9: the analysis-stage ASR path always yields null -/

/-- C9: for every input, feeding the output of `analyzeVideos` (which tags
its ~10 Hz interest curve with `sampleRate: 10`) into
`runTranscriptionIfEnabled` returns `null`, whatever the ASR pipeline would
do: an empty curve is rejected by the emptiness guard and a non-empty one by
the `sampleRate < 100` guard. -/
theorem runTranscription_after_analyze_none (durations globalAudio : List ℚ)
    (minLen maxLen : ℚ) (maxClips : ℕ)
    (asr : List ℚ → ℚ → Option RawAsrResult) :
    runTranscriptionIfEnabled
      (analyzeVideos durations globalAudio minLen maxLen maxClips).audioPCM
      (analyzeVideos durations globalAudio minLen maxLen maxClips).sampleRate
      asr = none := by
  show runTranscriptionIfEnabled globalAudio 10 asr = none
  unfold runTranscriptionIfEnabled
  split
  · rfl
  · rw [if_pos (by norm_num)]

/-! ## C8: movingAverage length and warm-up prefix -/

theorem movingAverageGo_length (arr : List ℚ) (k : ℕ) :
    ∀ (l : List ℚ) (i : ℕ) (s : ℚ), (movingAverageGo arr k l i s).length = l.length := by
  intro l
  induction l with
  | nil => intro i s; rfl
  | cons x rest ih => intro i s; simp [movingAverageGo, ih]

theorem movingAverageGo_warmup (arr : List ℚ) (k : ℕ) :
    ∀ (j i : ℕ) (s : ℚ), i + j < arr.length → i + j + 1 < k →
      s = (arr.take i).sum →
      (movingAverageGo arr k (arr.drop i) i s).get? j =
        some ((arr.take (i + j + 1)).sum / ((i + j + 1 : ℕ) : ℚ)) := by
  intro j
  induction j with
  | zero =>
    intro i s hlen hk hs
    have hi : i < arr.length := by omega
    rw [List.drop_eq_getElem_cons hi]
    have hik : ¬ k ≤ i := by omega
    have hmin : min (i + 1) k = i + 1 := by omega
    have hsum : s + arr[i] = (arr.take (i + 0 + 1)).sum := by
      rw [hs, Nat.add_zero, List.sum_take_succ arr i hi]
    simp only [movingAverageGo, if_neg hik, hmin, List.get?_cons_zero, hsum]
  | succ j ihj =>
    intro i s hlen hk hs
    have hi : i < arr.length := by omega
    rw [List.drop_eq_getElem_cons hi]
    have hik : ¬ k ≤ i := by omega
    have hsum : s + arr[i] = (arr.take (i + 1)).sum := by
      rw [hs, List.sum_take_succ arr i hi]
    simp only [movingAverageGo, if_neg hik, List.get?_cons_succ]
    have harith1 : i + 1 + j = i + (j + 1) := by omega
    have hres := ihj (i + 1) (s + arr[i]) (by omega) (by omega) hsum
    rw [harith1] at hres
    exact hres

/-- C8: `movingAverage` preserves the curve length, and during the warm-up
prefix (`i < k - 1`) each output entry is the mean of `c[0..i]` with divisor
`min(i+1, k) = i+1`, not a zero-padded average. -/
theorem movingAverage_length_and_warmup (c : List ℚ) (k : ℕ) :
    (movingAverage c k).length = c.length ∧
      ∀ i, i < k - 1 → i < c.length →
        (movingAverage c k).get? i =
          some ((c.take (i + 1)).sum / ((i + 1 : ℕ) : ℚ)) := by
  constructor
  · exact movingAverageGo_length c k c 0 0
  · intro i hik hilen
    have h := movingAverageGo_warmup c k i 0 0 (by omega) (by omega) (by simp)
    simpa using h

/-- C8 witness: `movingAverage [1, 2, 3] 5` keeps length 3 and its entry at
index 1 is `(1 + 2) / 2`. -/
theorem movingAverage_length_and_warmup_witness :
    (movingAverage [1, 2, 3] 5).length = ([1, 2, 3] : List ℚ).length ∧
      (movingAverage [1, 2, 3] 5).get? 1 =
        some ((([1, 2, 3] : List ℚ).take 2).sum / ((2 : ℕ) : ℚ)) :=
  ⟨(movingAverage_length_and_warmup [1, 2, 3] 5).1,
    (movingAverage_length_and_warmup [1, 2, 3] 5).2 1 (by decide) (by decide)⟩

/-! ## C5: the 80th-percentile threshold -/

/-- C5 (amended): for every curve whose ascending sorted copy has a nonzero
element at index `floor(0.8 * length)`, the peak threshold of `analyzeVideos`
equals that element; the `0.01` floor is used when the curve is empty, and
also whenever the selected element is `0` (it is falsy in `sorted[i] ||
0.01`). -/
theorem q80Threshold_spec :
    q80Threshold [] = 1/100 ∧
      ∀ (curve sortedC : List ℚ) (v : ℚ),
        List.Perm sortedC curve → sortedC.Sorted (· ≤ ·) →
        sortedC.get? (q80Index curve.length) = some v →
        q80Threshold curve = if v = 0 then 1/100 else v := by
  constructor
  · rfl
  · intro curve sortedC v hperm hsort hget
    have hperm2 : List.Perm (curve.insertionSort (· ≤ ·)) sortedC :=
      (List.perm_insertionSort _ _).trans hperm.symm
    have heq : curve.insertionSort (· ≤ ·) = sortedC :=
      List.eq_of_perm_of_sorted hperm2 (List.sorted_insertionSort _ _) hsort
    have hlen : sortedC.length = curve.length := hperm.length_eq
    simp only [q80Threshold, heq, hlen, hget]

/-- C5 witness: for the curve `[1, 2]`, the sorted copy is `[1, 2]`, the
percentile index is `floor(0.8 * 2) = 1`, the element there is `2 ≠ 0`, and
the threshold equals it. -/
theorem q80Threshold_spec_witness :
    q80Threshold [1, 2] = if (2 : ℚ) = 0 then 1/100 else 2 :=
  q80Threshold_spec.2 [1, 2] [1, 2] 2 (List.Perm.refl _) (by decide) (by decide)

/-- C5 counterexample: the non-empty all-zero curve `[0, 0]` has sorted
element `0` at the percentile index, yet the threshold is the floor constant
`0.01`, not that element — the floor constant is not used only for empty
curves. -/
theorem q80Threshold_nonempty_cex :
    ([0, 0] : List ℚ) ≠ [] ∧
      (([0, 0] : List ℚ).insertionSort (· ≤ ·)).get?
        (q80Index (([0, 0] : List ℚ).length)) = some 0 ∧
      q80Threshold [0, 0] = 1/100 ∧ (1 : ℚ)/100 ≠ 0 := by decide

/-! ## C4: the degraded single-segment caption fallback -/

/-- C4 (amended): for every transcription result whose chunk and segment
lists are absent or empty and whose `text` is a non-empty string,
`extractSegments` emits exactly one segment from `0` to
`Number.MAX_SAFE_INTEGER / 1000` carrying the entire text. -/
theorem extractSegments_fallback (res : RawAsrResult)
    (hc : res.chunks = none ∨ res.chunks = some [])
    (hs : res.segments = none ∨ res.segments = some [])
    (ht : strTruthy res.text = true) :
    extractSegments (some res) =
      some [⟨0, 9007199254740991 / 1000, res.text.getD ""⟩] := by
  rcases hc with hc | hc <;> rcases hs with hs | hs <;>
    simp [extractSegments, hc, hs, ht]

/-- C4 witness: a result with no chunks, no segments and `text = "hello"`
yields the single unbounded segment carrying `"hello"`. -/
theorem extractSegments_fallback_witness :
    extractSegments (some ⟨none, none, some "hello"⟩) =
      some [⟨0, 9007199254740991 / 1000, "hello"⟩] :=
  extractSegments_fallback ⟨none, none, some "hello"⟩ (Or.inl rfl) (Or.inl rfl)
    (by decide)

/-- A chunk carrying text but no timestamp in any spelling. -/
def noTsChunk : RawChunk := ⟨none, none, none, none, none, none, some "a", none, none⟩

/-- C4 counterexample: a result whose chunk list is non-empty but carries no
chunk-level timestamps at all, with full text `"hello"`, does not produce the
single fallback segment: the per-chunk loop still emits one segment
`{start: 0, end: 0, text: "a"}` and the fallback is skipped. -/
theorem extractSegments_fallback_cex :
    extractSegments (some ⟨some [noTsChunk], none, some "hello"⟩) =
        some [⟨0, 0, "a"⟩] ∧
      some [(⟨0, 0, "a"⟩ : Seg)] ≠
        some [(⟨0, 9007199254740991 / 1000, "hello"⟩ : Seg)] := by decide

/-! ## C3: dedupeClips and idempotence -/

theorem dedupeMergeGo_of_chain (minGap : ℚ) :
    ∀ (rest : List Clip) (last : Clip),
      List.Chain' (fun a b : Clip =>
        a.fileIndex ≠ b.fileIndex ∨ minGap ≤ b.start - a.endT) (last :: rest) →
      dedupeMergeGo minGap last rest = last :: rest := by
  intro rest
  induction rest with
  | nil => intro last _; rfl
  | cons c rest' ih =>
    intro last hchain
    obtain ⟨hp, hchain'⟩ := List.chain'_cons.mp hchain
    simp only [dedupeMergeGo, if_pos hp]
    rw [ih c hchain']

theorem clampClip_eq_self (c : Clip) (h0 : 0 ≤ c.start)
    (h5 : c.start + 1/2 ≤ c.endT) : clampClip c = c := by
  cases c with
  | mk f s e =>
    simp only [clampClip]
    congr 1
    · exact max_eq_right h0
    · exact max_eq_right h5

/-- C3 (amended): `dedupeClips` is not idempotent on arbitrary clip lists
(see the counterexample); it returns its input unchanged — hence is
idempotent — on lists already in canonical form: sorted by
`(fileIndex, start)`, every clip with `start >= 0` and
`end >= start + 0.5`, and consecutive same-file clips separated by at least
`minGapSeconds`. -/
theorem dedupeClips_canonical_fixed (l : List Clip) (minGap : ℚ)
    (hsort : List.Pairwise clipLE l)
    (hinv : ∀ c ∈ l, 0 ≤ c.start ∧ c.start + 1/2 ≤ c.endT)
    (hgap : List.Chain' (fun a b : Clip =>
      a.fileIndex ≠ b.fileIndex ∨ minGap ≤ b.start - a.endT) l) :
    dedupeClips l minGap = l := by
  have hins : l.insertionSort clipLE = l := List.Sorted.insertionSort_eq hsort
  unfold dedupeClips
  rw [hins]
  cases l with
  | nil => rfl
  | cons c rest =>
    show (dedupeMergeGo minGap c rest).map clampClip = c :: rest
    rw [dedupeMergeGo_of_chain minGap rest c hgap]
    have : ∀ x ∈ c :: rest, clampClip x = x := fun x hx =>
      clampClip_eq_self x ((hinv x hx).1) ((hinv x hx).2)
    rw [List.map_congr_left this]
    simp

/-- C3 witness: the canonical list `[{0, 0, 1/2}, {0, 3/2, 2}]` with
`minGapSeconds = 1` is returned unchanged by `dedupeClips`. -/
theorem dedupeClips_canonical_fixed_witness :
    dedupeClips [⟨0, 0, 1/2⟩, ⟨0, 3/2, 2⟩] 1 = [⟨0, 0, 1/2⟩, ⟨0, 3/2, 2⟩] :=
  dedupeClips_canonical_fixed [⟨0, 0, 1/2⟩, ⟨0, 3/2, 2⟩] 1
    (by decide) (by decide)
    (List.Chain.cons (by decide) List.Chain.nil)

/-- C3 counterexample: for the clip list `[{0, 0, 0}, {0, 1.2, 1.3}]` (with
`minGapSeconds = 1.0`), one application of `dedupeClips` yields
`[{0, 0, 0.5}, {0, 1.2, 1.7}]`, whose 0.5-second floors narrowed the gap to
`0.7 < 1.0`; a second application merges them into `[{0, 0, 1.7}]`, so
`dedupeClips` applied to its own output changes it. -/
theorem dedupeClips_not_idempotent_cex :
    dedupeClips (dedupeClips [⟨0, 0, 0⟩, ⟨0, 6/5, 13/10⟩] 1) 1 ≠
      dedupeClips [⟨0, 0, 0⟩, ⟨0, 6/5, 13/10⟩] 1 := by decide

/-! ## C1: invariants of the clips returned by analyzeVideos -/

/-- Invariant of a candidate clip before the final clamp: valid file index,
nonnegative local start strictly inside the file, and end within the file. -/
def ClipInv (durations : List ℚ) (c : Clip) : Prop :=
  c.fileIndex < durations.length ∧ 0 ≤ c.start ∧
    c.start < durations.getD c.fileIndex 0 ∧
    c.endT ≤ durations.getD c.fileIndex 0

theorem mapGo_some_spec (s e : ℚ) :
    ∀ (z : List (ℚ × ℚ)) (a : ℕ) (c : Clip), mapGo s e a z = some c →
      a ≤ c.fileIndex ∧ ∃ off dur, z.get? (c.fileIndex - a) = some (off, dur) ∧
        off ≤ s ∧ s < off + dur ∧ c.start = s - off ∧ c.endT = min (e - off) dur := by
  intro z
  induction z with
  | nil => intro a c h; simp [mapGo] at h
  | cons p rest ih =>
    intro a c h
    obtain ⟨off, dur⟩ := p
    by_cases hcond : off ≤ s ∧ s < off + dur
    · simp only [mapGo, if_pos hcond] at h
      cases h
      exact ⟨le_refl _, off, dur, by simp, hcond.1, hcond.2, rfl, rfl⟩
    · simp only [mapGo, if_neg hcond] at h
      obtain ⟨ha, off', dur', hget, h1, h2, h3, h4⟩ := ih (a + 1) c h
      refine ⟨by omega, off', dur', ?_, h1, h2, h3, h4⟩
      have hidx : c.fileIndex - a = (c.fileIndex - (a + 1)) + 1 := by omega
      rw [hidx, List.get?_cons_succ]
      exact hget

theorem mapGlobalTimeToFileRange_inv (s e : ℚ) (offs durs : List ℚ) (c : Clip)
    (h : mapGlobalTimeToFileRange s e offs durs = some c) : ClipInv durs c := by
  obtain ⟨-, off, dur, hget, h1, h2, h3, h4⟩ :=
    mapGo_some_spec s e (offs.zip durs) 0 c h
  rw [Nat.sub_zero, List.get?_eq_getElem?] at hget
  obtain ⟨-, hdur⟩ := List.getElem?_zip_eq_some.mp hget
  have hlt : c.fileIndex < durs.length := by
    by_contra hge
    rw [List.getElem?_eq_none (by omega)] at hdur
    cases hdur
  have hgetD : durs.getD c.fileIndex 0 = dur := by
    rw [List.getD_eq_getElem?_getD, hdur]; rfl
  refine ⟨hlt, ?_, ?_, ?_⟩
  · rw [h3]; linarith
  · rw [h3, hgetD]; linarith
  · rw [h4, hgetD]; exact min_le_right _ _

theorem collectClips_inv (offs durs : List ℚ) (minLen maxLen : ℚ)
    (maxClips : ℕ) :
    ∀ (peaks : List ℕ) (count : ℕ) (c : Clip),
      c ∈ collectClips offs durs minLen maxLen maxClips peaks count →
        ClipInv durs c := by
  intro peaks
  induction peaks with
  | nil => intro count c h; simp [collectClips] at h
  | cons pi rest ih =>
    intro count c h
    simp only [collectClips] at h
    split at h
    · rename_i clip hmap
      split at h
      · rw [List.mem_singleton] at h
        subst h
        exact mapGlobalTimeToFileRange_inv _ _ _ _ _ hmap
      · rcases List.mem_cons.mp h with rfl | h'
        · exact mapGlobalTimeToFileRange_inv _ _ _ _ _ hmap
        · exact ih (count + 1) c h'
    · split at h
      · simp at h
      · exact ih count c h

theorem dedupeMergeGo_inv (durs : List ℚ) (minGap : ℚ) :
    ∀ (l : List Clip) (last : Clip), ClipInv durs last →
      (∀ c ∈ l, ClipInv durs c) →
      ∀ x ∈ dedupeMergeGo minGap last l, ClipInv durs x := by
  intro l
  induction l with
  | nil =>
    intro last hlast _ x hx
    simp only [dedupeMergeGo, List.mem_singleton] at hx
    rwa [hx]
  | cons c rest ih =>
    intro last hlast hall x hx
    by_cases hcond : last.fileIndex ≠ c.fileIndex ∨ minGap ≤ c.start - last.endT
    · simp only [dedupeMergeGo, if_pos hcond] at hx
      rcases List.mem_cons.mp hx with rfl | hx'
      · exact hlast
      · exact ih c (hall c (List.mem_cons_self _ _))
          (fun y hy => hall y (List.mem_cons_of_mem _ hy)) x hx'
    · simp only [dedupeMergeGo, if_neg hcond] at hx
      push_neg at hcond
      obtain ⟨hfi, -⟩ := hcond
      obtain ⟨m1, m2, m3, m4⟩ := hlast
      obtain ⟨-, -, -, n4⟩ := hall c (List.mem_cons_self _ _)
      have hmerged : ClipInv durs { last with endT := max last.endT c.endT } := by
        refine ⟨m1, m2, m3, ?_⟩
        show max last.endT c.endT ≤ durs.getD last.fileIndex 0
        exact max_le m4 (by rw [hfi]; exact n4)
      exact ih _ hmerged (fun y hy => hall y (List.mem_cons_of_mem _ hy)) x hx

/-- C1 (amended): every clip returned by `analyzeVideos` satisfies
`0 <= start < end`, `end - start >= 0.5`, a valid file index with
`start < fileDuration[fileIndex]`, and
`end <= max(fileDuration[fileIndex], start + 0.5)`: the 0.5-second
minimum-length floor applied after merging can push `end` past the file
duration by less than 0.5 s, so `end <= fileDuration[fileIndex]` itself does
not always hold (see the counterexample). -/
theorem analyzeVideos_clip_invariant (durations globalAudio : List ℚ)
    (minLen maxLen : ℚ) (maxClips : ℕ) (c : Clip)
    (hc : c ∈ (analyzeVideos durations globalAudio minLen maxLen maxClips).clips) :
    0 ≤ c.start ∧ c.start < c.endT ∧ 1/2 ≤ c.endT - c.start ∧
      c.fileIndex < durations.length ∧
      c.start < durations.getD c.fileIndex 0 ∧
      c.endT ≤ max (durations.getD c.fileIndex 0) (c.start + 1/2) := by
  have hc' : c ∈ dedupeClips
      (collectClips (videoOffsets durations) durations minLen maxLen maxClips
        (detectPeaks globalAudio (q80Threshold globalAudio) 3) 0) 1 := hc
  set L := collectClips (videoOffsets durations) durations minLen maxLen maxClips
    (detectPeaks globalAudio (q80Threshold globalAudio) 3) 0 with hL
  cases hsorted : L.insertionSort clipLE with
  | nil =>
    unfold dedupeClips at hc'
    rw [hsorted] at hc'
    simp at hc'
  | cons c0 rest =>
    have hstep : dedupeClips L 1 = (dedupeMergeGo 1 c0 rest).map clampClip := by
      unfold dedupeClips
      rw [hsorted]
    rw [hstep] at hc'
    obtain ⟨c1, hc1mem, rfl⟩ := List.mem_map.mp hc'
    have hc0 : ClipInv durations c0 := by
      have hmem : c0 ∈ L.insertionSort clipLE := by
        rw [hsorted]; exact List.mem_cons_self _ _
      exact collectClips_inv _ _ _ _ _ _ 0 c0 ((List.mem_insertionSort clipLE).mp hmem)
    have hrest : ∀ y ∈ rest, ClipInv durations y := by
      intro y hy
      have hmem : y ∈ L.insertionSort clipLE := by
        rw [hsorted]; exact List.mem_cons_of_mem _ hy
      exact collectClips_inv _ _ _ _ _ _ 0 y ((List.mem_insertionSort clipLE).mp hmem)
    obtain ⟨m1, m2, m3, m4⟩ :=
      dedupeMergeGo_inv durations 1 rest c0 hc0 hrest c1 hc1mem
    have hs : (clampClip c1).start = c1.start := max_eq_right m2
    have he : (clampClip c1).endT = max (c1.start + 1/2) c1.endT := rfl
    have h1 : c1.start + 1/2 ≤ (clampClip c1).endT := by
      rw [he]; exact le_max_left _ _
    have h2 : (clampClip c1).endT ≤
        max (durations.getD c1.fileIndex 0) (c1.start + 1/2) := by
      rw [he]
      exact max_le (le_max_right _ _) (le_trans m4 (le_max_left _ _))
    refine ⟨?_, ?_, ?_, m1, ?_, ?_⟩
    · rw [hs]; exact m2
    · rw [hs]; linarith
    · rw [hs]; linarith
    · rw [hs]; exact m3
    · rw [hs]; exact h2

/-- C1 witness: on one file of duration 1 s with the interest curve
`[0,0,0,0,0,0,0,0,5,0]`, `minLen = 0.4`, `maxLen = 1`, `maxClips = 5`, the
single output clip `{0, 0.6, 1.1}` satisfies the amended invariant. -/
theorem analyzeVideos_clip_invariant_witness :
    0 ≤ (⟨0, 3/5, 11/10⟩ : Clip).start ∧
      (⟨0, 3/5, 11/10⟩ : Clip).start < (⟨0, 3/5, 11/10⟩ : Clip).endT ∧
      1/2 ≤ (⟨0, 3/5, 11/10⟩ : Clip).endT - (⟨0, 3/5, 11/10⟩ : Clip).start ∧
      (⟨0, 3/5, 11/10⟩ : Clip).fileIndex < ([(1 : ℚ)] : List ℚ).length ∧
      (⟨0, 3/5, 11/10⟩ : Clip).start <
        ([(1 : ℚ)] : List ℚ).getD (⟨0, 3/5, 11/10⟩ : Clip).fileIndex 0 ∧
      (⟨0, 3/5, 11/10⟩ : Clip).endT ≤
        max (([(1 : ℚ)] : List ℚ).getD (⟨0, 3/5, 11/10⟩ : Clip).fileIndex 0)
          ((⟨0, 3/5, 11/10⟩ : Clip).start + 1/2) :=
  analyzeVideos_clip_invariant [1] [0, 0, 0, 0, 0, 0, 0, 0, 5, 0] (2/5) 1 5
    ⟨0, 3/5, 11/10⟩ (by decide)

/-- C1 counterexample: with one file of duration 1 s, interest curve
`[0,0,0,0,0,0,0,0,5,0]`, `minLen = 0.4`, `maxLen = 1` and `maxClips = 5`,
`analyzeVideos` returns the single clip `{0, 0.6, 1.1}` whose `end = 1.1`
exceeds the file duration `1`: the invariant
`end <= fileDuration[fileIndex]` claimed by the specification fails. -/
theorem analyzeVideos_clip_invariant_cex :
    (analyzeVideos [1] [0, 0, 0, 0, 0, 0, 0, 0, 5, 0] (2/5) 1 5).clips =
        [⟨0, 3/5, 11/10⟩] ∧
      ¬ ((11 : ℚ)/10 ≤ ([(1 : ℚ)] : List ℚ).getD 0 0) := by decide

/-! ## C2: the caption cursor is monotone across one export run -/

theorem advanceFrom_mono (t t' : ℚ) (h : t ≤ t') :
    ∀ segs : List Seg, advanceFrom t segs ≤ advanceFrom t' segs := by
  intro segs
  induction segs with
  | nil => exact le_refl _
  | cons s rest ih =>
    simp only [advanceFrom]
    by_cases hlt : s.endT < t
    · rw [if_pos hlt, if_pos (lt_of_lt_of_le hlt h)]
      exact Nat.succ_le_succ ih
    · rw [if_neg hlt]
      exact Nat.zero_le _

theorem advanceFrom_drop (t : ℚ) :
    ∀ (segs : List Seg) (i : ℕ), i ≤ advanceFrom t segs →
      i + advanceFrom t (segs.drop i) = advanceFrom t segs := by
  intro segs
  induction segs with
  | nil =>
    intro i hi
    simp only [advanceFrom] at hi
    have hz : i = 0 := Nat.le_zero.mp hi
    subst hz
    simp [advanceFrom]
  | cons s rest ih =>
    intro i hi
    cases i with
    | zero => simp
    | succ j =>
      simp only [advanceFrom] at hi
      by_cases hlt : s.endT < t
      · rw [if_pos hlt] at hi
        have hj : j ≤ advanceFrom t rest := by omega
        have hrec := ih j hj
        simp only [List.drop_succ_cons, advanceFrom, if_pos hlt]
        omega
      · rw [if_neg hlt] at hi
        omega

theorem advanceIdx_canon (segs : List Seg) (t : ℚ) (i : ℕ)
    (h : i ≤ advanceFrom t segs) : advanceIdx segs t i = advanceFrom t segs := by
  unfold advanceIdx
  exact advanceFrom_drop t segs i h

theorem runClip_eq_map (segs : List Seg) :
    ∀ (ts : List ℚ) (i : ℕ), List.Chain' (· ≤ ·) ts →
      (∀ t0 ∈ ts.head?, i ≤ advanceFrom t0 segs) →
      runClip segs ts i = ts.map (fun t => advanceFrom t segs) := by
  intro ts
  induction ts with
  | nil => intro i _ _; rfl
  | cons t ts' ih =>
    intro i hchain hhead
    have hle : i ≤ advanceFrom t segs := hhead t rfl
    have hidx : advanceIdx segs t i = advanceFrom t segs :=
      advanceIdx_canon segs t i hle
    obtain ⟨hh, hchain'⟩ := List.chain'_cons'.mp hchain
    simp only [runClip, hidx, List.map_cons]
    congr 1
    refine ih (advanceFrom t segs) hchain' ?_
    intro t1 ht1
    exact advanceFrom_mono t t1 (hh t1 ht1) segs

/-- C2: over one export run (each clip's render loop restarts its cursor
variable at 0, but re-advances it at the clip's first frame), if the export
times of the drawn frames are monotonically non-decreasing across the whole
clip sequence, then the cursor indices actually used to select the active
caption segment are non-decreasing; the cursor advance never rewinds within a
frame; and a segment is drawn only when
`segments[index].start <= exportTime <= segments[index].end`. -/
theorem exportRun_caption_cursor (segs : List Seg) (clipTimes : List (List ℚ))
    (hmono : List.Chain' (· ≤ ·) clipTimes.flatten) :
    List.Chain' (· ≤ ·) (runExport segs clipTimes) ∧
      (∀ (i : ℕ) (t : ℚ), i ≤ advanceIdx segs t i) ∧
      (∀ (i : ℕ) (t : ℚ), captionShown segs i t = true →
        ∃ seg, segs.get? (advanceIdx segs t i) = some seg ∧
          seg.start ≤ t ∧ t ≤ seg.endT) := by
  refine ⟨?_, ?_, ?_⟩
  · have hcomp : ∀ ts ∈ clipTimes,
        runClip segs ts 0 = ts.map (fun t => advanceFrom t segs) := by
      intro ts hts
      have hsub : ts.Sublist clipTimes.flatten := List.sublist_flatten_of_mem hts
      have hchain : List.Chain' (· ≤ ·) ts := hmono.sublist hsub
      exact runClip_eq_map segs ts 0 hchain (fun t0 _ => Nat.zero_le _)
    have hmapeq : clipTimes.map (fun ts => runClip segs ts 0) =
        clipTimes.map (fun ts => ts.map (fun t => advanceFrom t segs)) :=
      List.map_congr_left hcomp
    have hflat : (clipTimes.map (fun ts =>
        ts.map (fun t => advanceFrom t segs))).flatten =
        clipTimes.flatten.map (fun t => advanceFrom t segs) :=
      (List.map_flatten _ _).symm
    unfold runExport
    rw [hmapeq, hflat, List.chain'_map]
    exact hmono.imp (fun a b hab => advanceFrom_mono a b hab segs)
  · intro i t
    exact Nat.le_add_right _ _
  · intro i t hshown
    unfold captionShown at hshown
    cases hget : segs.get? (advanceIdx segs t i) with
    | none => rw [hget] at hshown; cases hshown
    | some seg =>
      rw [hget] at hshown
      simp only [decide_eq_true_eq] at hshown
      exact ⟨seg, rfl, hshown.1, hshown.2⟩

/-- C2 witness: with captions `[{0,1,"a"}, {2,3,"b"}]` and two clips drawing
at export times `[0, 1/2]` and `[5/2]`, the frame times are monotone and the
resulting cursor trace is non-decreasing. -/
theorem exportRun_caption_cursor_witness :
    List.Chain' (· ≤ ·) (([[0, 1/2], [5/2]] : List (List ℚ)).flatten) ∧
      List.Chain' (· ≤ ·)
        (runExport [⟨0, 1, "a"⟩, ⟨2, 3, "b"⟩] [[0, 1/2], [5/2]]) :=
  have hm : List.Chain' (· ≤ ·) (([[0, 1/2], [5/2]] : List (List ℚ)).flatten) :=
    List.Chain.cons (by norm_num) (List.Chain.cons (by norm_num) List.Chain.nil)
  ⟨hm, (exportRun_caption_cursor [⟨0, 1, "a"⟩, ⟨2, 3, "b"⟩] [[0, 1/2], [5/2]] hm).1⟩
